import Mathlib

/-!
Verification of the password-credential subsystem of the secure-user
service.  The development shallowly embeds the code of `app/auth.py`
(PBKDF2-HMAC-SHA256 credential codec), `app/crud.py` (user registration)
and `app/main.py` (the POST /users/ route).  Bytes are `Nat` values,
byte strings are `List Nat`, Python `str` is Lean `String`, a Python
function that may raise becomes `Except Unit`.  The external random
source consumed by `os.urandom(16)` is made explicit: the salt is a
parameter of `hash_password`, quantified over in the theorems.
-/

namespace SecureUser

/-- Reduction of a machine word modulo 2^32, the word size of SHA-256. -/
def w32 (n : Nat) : Nat := n % 4294967296

/-- Big-endian byte serialization of `n` into exactly `k` bytes. -/
def toBytesBE : Nat → Nat → List Nat
  | 0, _ => []
  | k + 1, n => toBytesBE k (n / 256) ++ [n % 256]

/-- Big-endian 32-bit words from a byte list, four bytes at a time. -/
def bytesToWordsBE : List Nat → List Nat
  | b1 :: b2 :: b3 :: b4 :: rest =>
      (((b1 * 256 + b2) * 256 + b3) * 256 + b4) :: bytesToWordsBE rest
  | _ => []

/-- Right rotation of a 32-bit word by `s` places. -/
def rotr (s x : Nat) : Nat := (x % 2 ^ s) * 2 ^ (32 - s) + x / 2 ^ s

/-- Logical right shift of a 32-bit word by `s` places. -/
def shr (s x : Nat) : Nat := x / 2 ^ s

/-- Big sigma-0 word mixing function of SHA-256. -/
def bigSigma0 (x : Nat) : Nat := Nat.xor (rotr 2 x) (Nat.xor (rotr 13 x) (rotr 22 x))

/-- Big sigma-1 word mixing function of SHA-256. -/
def bigSigma1 (x : Nat) : Nat := Nat.xor (rotr 6 x) (Nat.xor (rotr 11 x) (rotr 25 x))

/-- Small sigma-0 message-schedule function of SHA-256. -/
def smallSigma0 (x : Nat) : Nat := Nat.xor (rotr 7 x) (Nat.xor (rotr 18 x) (shr 3 x))

/-- Small sigma-1 message-schedule function of SHA-256. -/
def smallSigma1 (x : Nat) : Nat := Nat.xor (rotr 17 x) (Nat.xor (rotr 19 x) (shr 10 x))

/-- Choice function of the SHA-256 round: bits of `y` where `x` is set,
bits of `z` where it is clear. -/
def chF (x y z : Nat) : Nat := Nat.xor (Nat.land x y) (Nat.land (4294967295 - w32 x) z)

/-- Majority function of the SHA-256 round. -/
def majF (x y z : Nat) : Nat :=
  Nat.xor (Nat.land x y) (Nat.xor (Nat.land x z) (Nat.land y z))

/-- Round constants of SHA-256 (FIPS 180-4). -/
def sha256K : List Nat :=
  [1116352408, 1899447441, 3049323471, 3921009573, 961987163, 1508970993,
   2453635748, 2870763221, 3624381080, 310598401, 607225278, 1426881987,
   1925078388, 2162078206, 2614888103, 3248222580, 3835390401, 4022224774,
   264347078, 604807628, 770255983, 1249150122, 1555081692, 1996064986,
   2554220882, 2821834349, 2952996808, 3210313671, 3336571891, 3584528711,
   113926993, 338241895, 666307205, 773529912, 1294757372, 1396182291,
   1695183700, 1986661051, 2177026350, 2456956037, 2730485921, 2820302411,
   3259730800, 3345764771, 3516065817, 3600352804, 4094571909, 275423344,
   430227734, 506948616, 659060556, 883997877, 958139571, 1322822218,
   1537002063, 1747873779, 1955562222, 2024104815, 2227730452, 2361852424,
   2428436474, 2756734187, 3204031479, 3329325298]

/-- Initial hash state of SHA-256 (FIPS 180-4). -/
def sha256H0 : List Nat :=
  [1779033703, 3144134277, 1013904242, 2773480762,
   1359893119, 2600822924, 528734635, 1541459225]

/-- One SHA-256 round: consumes a round constant paired with a schedule
word and rotates the eight-word working state. -/
def compressStep (st : List Nat) (kw : Nat × Nat) : List Nat :=
  let a := st.getD 0 0
  let b := st.getD 1 0
  let c := st.getD 2 0
  let d := st.getD 3 0
  let e := st.getD 4 0
  let f := st.getD 5 0
  let g := st.getD 6 0
  let h := st.getD 7 0
  let t1 := w32 (h + bigSigma1 e + chF e f g + kw.1 + kw.2)
  let t2 := w32 (bigSigma0 a + majF a b c)
  [w32 (t1 + t2), a, b, c, w32 (d + t1), e, f, g]

/-- Extension of the 16-word message schedule by `k` further words. -/
def extendSchedule : Nat → List Nat → List Nat
  | 0, ws => ws
  | k + 1, ws =>
      let m := ws.length
      let nw := w32 (smallSigma1 (ws.getD (m - 2) 0) + ws.getD (m - 7) 0 +
        smallSigma0 (ws.getD (m - 15) 0) + ws.getD (m - 16) 0)
      extendSchedule k (ws ++ [nw])

/-- Compression of one 64-byte block into the running eight-word state. -/
def compressBlock (h : List Nat) (block : List Nat) : List Nat :=
  let ws := extendSchedule 48 (bytesToWordsBE block)
  let st := (sha256K.zip ws).foldl compressStep h
  List.zipWith (fun x y => w32 (x + y)) h st

/-- Partition of a byte list into 64-byte blocks. -/
def chunk64 (l : List Nat) : List (List Nat) :=
  if h : l = [] then [] else l.take 64 :: chunk64 (l.drop 64)
termination_by l.length
decreasing_by
  have hp : 0 < l.length := List.length_pos.mpr h
  simp only [List.length_drop]
  omega

/-- SHA-256 of a byte string: pad to a multiple of 64 bytes with the
0x80 marker and the big-endian 64-bit bit length, compress each block,
serialize the final state big-endian. -/
def sha256 (msg : List Nat) : List Nat :=
  let padded := msg ++ 128 :: (List.replicate ((119 - msg.length % 64) % 64) 0 ++
    toBytesBE 8 (msg.length * 8))
  let hs := (chunk64 padded).foldl compressBlock sha256H0
  hs.foldr (fun w acc => toBytesBE 4 w ++ acc) []

/-- HMAC key preprocessing: a key longer than the 64-byte SHA-256 block
is first hashed; the result is zero-padded to exactly 64 bytes.  Keys
that agree after this step yield identical HMACs — in particular a key
and the same key extended by zero bytes. -/
def hmacKey (key : List Nat) : List Nat :=
  let k0 := if 64 < key.length then sha256 key else key
  k0 ++ List.replicate (64 - k0.length) 0

/-- Core of HMAC-SHA256 over an already preprocessed 64-byte key. -/
def hmacCore (k msg : List Nat) : List Nat :=
  sha256 ((k.map fun b => Nat.xor b 92) ++ sha256 ((k.map fun b => Nat.xor b 54) ++ msg))

/-- HMAC-SHA256 keyed hash, as used by `hashlib.pbkdf2_hmac("sha256", …)`. -/
def hmacSha256 (key msg : List Nat) : List Nat := hmacCore (hmacKey key) msg

/-- Iteration loop of PBKDF2: repeatedly re-applies the PRF and xors the
results into the accumulator. -/
def pbkdf2Loop (prf : List Nat → List Nat) : Nat → List Nat → List Nat → List Nat
  | 0, _, t => t
  | c + 1, u, t =>
      let u2 := prf u
      pbkdf2Loop prf c u2 (List.zipWith Nat.xor t u2)

/-- PBKDF2-HMAC-SHA256 with the default derived-key length of one SHA-256
block (32 bytes), the configuration `hashlib.pbkdf2_hmac("sha256",
password, salt, iterations)` uses in `app/auth.py`. -/
def pbkdf2Sha256 (password salt : List Nat) (c : Nat) : List Nat :=
  let u1 := hmacSha256 password (salt ++ toBytesBE 4 1)
  pbkdf2Loop (hmacSha256 password) (c - 1) u1 u1

/-- UTF-8 encoding of one unicode scalar value, as `str.encode("utf-8")`
performs per character. -/
def utf8Char (c : Char) : List Nat :=
  let n := c.toNat
  if n < 128 then [n]
  else if n < 2048 then [192 + n / 64, 128 + n % 64]
  else if n < 65536 then [224 + n / 4096, 128 + n / 64 % 64, 128 + n % 64]
  else [240 + n / 262144, 128 + n / 4096 % 64, 128 + n / 64 % 64, 128 + n % 64]

/-- UTF-8 encoding of a string, modelling Python `s.encode("utf-8")`. -/
def utf8 (s : String) : List Nat := s.data.foldr (fun c acc => utf8Char c ++ acc) []

/-- Alphabet of standard base64, the table `base64.b64encode` draws from.
The dollar delimiter of the stored format is not in it. -/
def b64Table : List Char :=
  "ABCDEFGHIJKLMNOPQRSTUVWXYZabcdefghijklmnopqrstuvwxyz0123456789+/".data

/-- Character of the base64 alphabet at sextet value `n`. -/
def b64Char (n : Nat) : Char := b64Table.getD n 'A'

/-- Sextet value of a base64 alphabet character, `none` outside the
alphabet. -/
def b64CharVal (c : Char) : Option Nat := b64Table.findIdx? (fun d => d == c)

/-- Standard base64 encoding of a byte list with `=` padding and no line
wrapping, modelling `base64.b64encode`. -/
def b64EncodeBytes : List Nat → List Char
  | [] => []
  | [b1] => [b64Char (b1 / 4), b64Char (b1 % 4 * 16), '=', '=']
  | [b1, b2] => [b64Char (b1 / 4), b64Char (b1 % 4 * 16 + b2 / 16), b64Char (b2 % 16 * 4), '=']
  | b1 :: b2 :: b3 :: rest =>
      b64Char (b1 / 4) :: b64Char (b1 % 4 * 16 + b2 / 16) ::
        b64Char (b2 % 16 * 4 + b3 / 64) :: b64Char (b3 % 64) :: b64EncodeBytes rest

/-- State machine of `binascii.a2b_base64` in its default non-strict
mode, as `base64.b64decode` invokes it on the UTF-8 bytes of a field:
characters outside the alphabet are discarded (a multi-byte UTF-8
character consists solely of bytes outside the alphabet, so discarding
the character matches discarding its bytes), an `=` with fewer than two
data characters in the current quad is ignored, an `=` completing a quad
of at least two data characters plus padding stops decoding and ignores
the remainder, and a final quad of one data character or of two or
three data characters without closing padding is an error.  `quad` is
the position in the current four-character group, `left` the pending
bits of the previous character, `pads` the padding seen in this group. -/
def a2bBase64 : List Char → Nat → Nat → Nat → List Nat → Option (List Nat)
  | [], quad, _, _, acc => if quad = 0 then some acc else none
  | c :: rest, quad, left, pads, acc =>
      if c = '=' then
        if 2 ≤ quad then
          if 4 ≤ quad + (pads + 1) then some acc
          else a2bBase64 rest quad left (pads + 1) acc
        else a2bBase64 rest quad left pads acc
      else
        match b64CharVal c with
        | none => a2bBase64 rest quad left pads acc
        | some v =>
            match quad with
            | 0 => a2bBase64 rest 1 v 0 acc
            | 1 => a2bBase64 rest 2 (v % 16) 0 (acc ++ [left * 4 + v / 16])
            | 2 => a2bBase64 rest 3 (v % 4) 0 (acc ++ [left * 16 + v / 4])
            | _ => a2bBase64 rest 0 0 0 (acc ++ [left * 64 + v])

/-- Base64 decoding as `base64.b64decode` performs it with the default
`validate=False`, validated against CPython 3.11 on a 200000-case
corpus.  Like Python, the unused low bits of a final partial group are
not required to be zero. -/
def b64DecodeBytes (cs : List Char) : Option (List Nat) := a2bBase64 cs 0 0 0 []

/-- Value of an ASCII decimal digit character, `none` for any other
character. -/
def digitVal (c : Char) : Option Nat :=
  if '0' ≤ c ∧ c ≤ '9' then some (c.toNat - 48) else none

/-- Whitespace stripped by `PyLong_FromString`: the six ASCII spacing
characters recognized by `Py_ISSPACE`. -/
def pyIsAsciiSpace (c : Char) : Bool :=
  c.toNat = 32 || c.toNat = 9 || c.toNat = 10 || c.toNat = 11 ||
    c.toNat = 12 || c.toNat = 13

/-- Digit-and-underscore scan of `PyLong_FromString` (PEP 515): an
underscore must sit strictly between digits — never doubled, leading,
or trailing; the scan stops at the first other character.  `pending`
records an underscore awaiting a digit. -/
def scanDigits : List Char → Nat → Bool → Option (Nat × List Char)
  | [], acc, pending => if pending then none else some (acc, [])
  | c :: rest, acc, pending =>
      match digitVal c with
      | some d => scanDigits rest (acc * 10 + d) false
      | none =>
          if c = '_' then
            if pending then none else scanDigits rest acc true
          else if pending then none
          else some (acc, c :: rest)

/-- Digit run starting the numeral body: at least one leading digit,
then the underscore-aware scan. -/
def parseDigitRun : List Char → Option (Nat × List Char)
  | [] => none
  | c :: rest =>
      match digitVal c with
      | some d => scanDigits rest d false
      | none => none

/-- Core numeral grammar of `PyLong_FromString` at base 10: optional
surrounding ASCII whitespace, one optional sign, a digit run with PEP
515 underscores, and nothing else. -/
def strToIntAux (cs : List Char) : Option Int :=
  match cs.dropWhile pyIsAsciiSpace with
  | [] => none
  | c :: rest =>
      if c = '-' then
        (parseDigitRun rest).bind fun vr =>
          if vr.2.dropWhile pyIsAsciiSpace = [] then some (-(vr.1 : Int)) else none
      else if c = '+' then
        (parseDigitRun rest).bind fun vr =>
          if vr.2.dropWhile pyIsAsciiSpace = [] then some ((vr.1 : Int)) else none
      else
        (parseDigitRun (c :: rest)).bind fun vr =>
          if vr.2.dropWhile pyIsAsciiSpace = [] then some ((vr.1 : Int)) else none

/-- Code points at and above 127 that Python whitespace-folds to a
space in `_PyUnicode_TransformDecimalAndSpaceToASCII` (the
`Py_UNICODE_ISSPACE` set above ASCII). -/
def pyTransformSpace : List Nat :=
  [133, 160, 5760, 8192, 8193, 8194, 8195, 8196, 8197, 8198, 8199, 8200,
   8201, 8202, 8232, 8233, 8239, 8287, 12288]

/-- First code points of the aligned runs of ten consecutive Unicode
decimal digits (category Nd), generated from the `unicodedata` of the
CPython this models; `Py_UNICODE_TODECIMAL` maps the k-th point of a
run to k. -/
def decDigitRunStarts : List Nat :=
  [48, 1632, 1776, 1984, 2406, 2534, 2662, 2790, 2918, 3046, 3174, 3302,
   3430, 3558, 3664, 3792, 3872, 4160, 4240, 6112, 6160, 6470, 6608, 6784,
   6800, 6992, 7088, 7232, 7248, 42528, 43216, 43264, 43472, 43504, 43600,
   44016, 65296, 66720, 68912, 69734, 69872, 69942, 70096, 70384, 70736,
   70864, 71248, 71360, 71472, 71904, 72016, 72784, 73040, 73120, 92768,
   92864, 93008, 120782, 120792, 120802, 120812, 120822, 123200, 123632,
   125264, 130032]

/-- Decimal value of a Unicode decimal-digit character. -/
def decDigitVal (c : Char) : Option Nat :=
  (decDigitRunStarts.find? fun s => s ≤ c.toNat && c.toNat < s + 10).map
    fun s => c.toNat - s

/-- Per-character step of
`_PyUnicode_TransformDecimalAndSpaceToASCII`: code points below 127 are
kept, whitespace at or above 127 becomes a space, Unicode decimal
digits become ASCII digits, and everything else becomes `?`, which can
never parse. -/
def transformChar (c : Char) : Char :=
  if c.toNat < 127 then c
  else if pyTransformSpace.contains c.toNat then ' '
  else
    match decDigitVal c with
    | some d => Char.ofNat (48 + d)
    | none => '?'

/-- Integer parsing as Python `int(str)` performs it: a pure-ASCII
string goes straight to the numeral grammar, any other string is first
folded character-wise to ASCII.  Validated against CPython 3.11 on a
500000-case corpus including Unicode digits and whitespace. -/
def strToInt (cs : List Char) : Option Int :=
  if cs.all fun c => c.toNat < 128 then strToIntAux cs
  else strToIntAux (cs.map transformChar)

/-- Decimal rendering of a natural number, modelling Python string
formatting of the iteration count. -/
def natRepr (n : Nat) : List Char :=
  if n = 0 then ['0'] else (Nat.digits 10 n).reverse.map fun d => Char.ofNat (48 + d)

/-- Split of a character list on the dollar delimiter, modelling Python
`s.split("$")`: the empty string yields one empty field, and `k`
delimiters yield `k + 1` fields. -/
def splitDollar : List Char → List (List Char)
  | [] => [[]]
  | c :: rest =>
      if c = '$' then [] :: splitDollar rest
      else
        match splitDollar rest with
        | [] => [[c]]
        | f :: fs => (c :: f) :: fs

/-- Guarded key derivation of `_hash_password_raw`: `hashlib.pbkdf2_hmac`
raises ValueError for an iteration count below one (here `Except.error`),
and otherwise derives the 32-byte PBKDF2-HMAC-SHA256 key. -/
def _hash_password_raw (plain : String) (salt : List Nat) (iterations : Int) :
    Except Unit (List Nat) :=
  if iterations < 1 then Except.error ()
  else Except.ok (pbkdf2Sha256 (utf8 plain) salt iterations.toNat)

/-- Credential encoding of `hash_password`: 100000 iterations over the
supplied salt (the explicit stand-in for `os.urandom(16)`), serialized
as `iterations$salt_b64$hash_b64`.  At 100000 iterations the guard of
`_hash_password_raw` cannot fire, so the derived key is the plain
PBKDF2 value; `hash_password_raw_default` below records that equality. -/
def hash_password (plain : String) (salt : List Nat) : String :=
  let dk := pbkdf2Sha256 (utf8 plain) salt 100000
  ⟨natRepr 100000 ++ '$' :: (b64EncodeBytes salt ++ '$' :: b64EncodeBytes dk)⟩

/-- Parsing stage of `verify_password`, the body of its `try` block:
split on the dollar delimiter into exactly three fields, read the
iteration count as an integer, base64-decode salt and derived key.  Any
failure is `none`, which the caller turns into `False`. -/
def parseStored (stored : String) : Option (Int × List Nat × List Nat) :=
  match splitDollar stored.data with
  | [i, s, d] =>
      match strToInt i, b64DecodeBytes s, b64DecodeBytes d with
      | some it, some salt, some dk => some (it, salt, dk)
      | _, _, _ => none
  | _ => none

/-- Constant-time digest comparison modelling `hmac.compare_digest`:
differing lengths compare unequal, and equal-length inputs accumulate
the xor of every byte pair into a running or, reporting equality iff
the accumulator stays zero. -/
def compare_digest (a b : List Nat) : Bool :=
  (a.length == b.length) && ((List.zipWith Nat.xor a b).foldl Nat.lor 0 == 0)

/-- Password verification of `verify_password`.  The `try` block covers
only parsing, so a parse failure yields `False`; the derivation call
sits outside it, so its ValueError for a parsed iteration count below
one escapes as `Except.error`. -/
def verify_password (plain stored : String) : Except Unit Bool :=
  match parseStored stored with
  | none => Except.ok false
  | some (iterations, salt, expected_dk) =>
      match _hash_password_raw plain salt iterations with
      | Except.error e => Except.error e
      | Except.ok actual_dk => Except.ok (compare_digest actual_dk expected_dk)

/-- Registration request body of `schemas.UserCreate`. -/
structure UserCreate where
  username : String
  email : String
  password : String

/-- Modelled from the spec: `models.py` is absent from `src/`, so the
persisted user row is taken from the data model of the spec — the user
record carries the username, the email, and the serialized credential as
its only password-derived field `password_hash`. -/
structure UserRecord where
  username : String
  email : String
  password_hash : String

/-- Relational store backing the session: the list of committed user
rows. -/
structure DBState where
  users : List UserRecord

/-- Modelled from the spec: `models.py` (absent from `src/`) declares
unique columns for username and email, so `db.commit()` raises
`IntegrityError` exactly when the new row duplicates either field of an
existing row. -/
def violatesUnique (db : DBState) (u : UserRecord) : Bool :=
  db.users.any fun v => v.username == u.username || v.email == u.email

namespace Crud

/-- Registration of `crud.create_user`: hash the submitted password,
build the row, commit.  On `IntegrityError` the session is rolled back
(the returned state is the unchanged input state) and the error is
re-raised; on success the committed state carries the new row. -/
def create_user (db : DBState) (user_in : UserCreate) (salt : List Nat) :
    DBState × Except Unit UserRecord :=
  let hashed := hash_password user_in.password salt
  let db_user : UserRecord :=
    { username := user_in.username, email := user_in.email, password_hash := hashed }
  if violatesUnique db db_user then (db, Except.error ())
  else ({ users := db.users ++ [db_user] }, Except.ok db_user)

end Crud

/-- Outcome of the POST /users/ route: a 201 creation or an HTTP error
with status code and detail string. -/
inductive RouteResult where
  | created : UserRecord → RouteResult
  | httpError : Nat → String → RouteResult

namespace Main

/-- Route handler of `main.create_user`: delegate to the CRUD layer and
translate `IntegrityError` into a 400 response with the fixed detail
message. -/
def create_user (db : DBState) (user_in : UserCreate) (salt : List Nat) :
    DBState × RouteResult :=
  match Crud.create_user db user_in salt with
  | (db2, Except.ok user) => (db2, RouteResult.created user)
  | (db2, Except.error _) =>
      (db2, RouteResult.httpError 400 "Username or email already exists.")

end Main

/-! Length and byte-range facts about the derivation pipeline. -/

theorem toBytesBE_length (k n : Nat) : (toBytesBE k n).length = k := by
  induction k generalizing n with
  | zero => rfl
  | succ k ih => simp [toBytesBE, ih]

theorem toBytesBE_lt (k n : Nat) : ∀ b ∈ toBytesBE k n, b < 256 := by
  induction k generalizing n with
  | zero => intro b hb; simp [toBytesBE] at hb
  | succ k ih =>
      intro b hb
      simp only [toBytesBE, List.mem_append, List.mem_singleton] at hb
      rcases hb with hb | hb
      · exact ih (n / 256) b hb
      · omega

theorem compressStep_length (st : List Nat) (kw : Nat × Nat) :
    (compressStep st kw).length = 8 := rfl

theorem foldl_compressStep_length (l : List (Nat × Nat)) (st : List Nat)
    (h : st.length = 8) : (l.foldl compressStep st).length = 8 := by
  induction l generalizing st with
  | nil => simpa using h
  | cons x l ih => exact ih (compressStep st x) (compressStep_length st x)

theorem compressBlock_length (h b : List Nat) (hh : h.length = 8) :
    (compressBlock h b).length = 8 := by
  unfold compressBlock
  rw [List.length_zipWith, hh, foldl_compressStep_length _ _ hh]
  omega

theorem foldl_compressBlock_length (bs : List (List Nat)) (h : List Nat)
    (hh : h.length = 8) : (bs.foldl compressBlock h).length = 8 := by
  induction bs generalizing h with
  | nil => simpa using hh
  | cons b bs ih => exact ih (compressBlock h b) (compressBlock_length h b hh)

theorem digest_bytes_length (hs : List Nat) :
    (hs.foldr (fun w acc => toBytesBE 4 w ++ acc) []).length = 4 * hs.length := by
  induction hs with
  | nil => rfl
  | cons w hs ih => simp [toBytesBE_length, ih]; ring

theorem digest_bytes_lt (hs : List Nat) :
    ∀ b ∈ hs.foldr (fun w acc => toBytesBE 4 w ++ acc) [], b < 256 := by
  induction hs with
  | nil => intro b hb; simp at hb
  | cons w hs ih =>
      intro b hb
      simp only [List.foldr_cons, List.mem_append] at hb
      rcases hb with hb | hb
      · exact toBytesBE_lt 4 w b hb
      · exact ih b hb

theorem sha256_length (msg : List Nat) : (sha256 msg).length = 32 := by
  unfold sha256
  rw [digest_bytes_length, foldl_compressBlock_length _ sha256H0 rfl]

theorem sha256_lt (msg : List Nat) : ∀ b ∈ sha256 msg, b < 256 := by
  unfold sha256
  exact digest_bytes_lt _

theorem hmacSha256_length (key msg : List Nat) : (hmacSha256 key msg).length = 32 :=
  sha256_length _

theorem hmacSha256_lt (key msg : List Nat) : ∀ b ∈ hmacSha256 key msg, b < 256 :=
  sha256_lt _

theorem mem_zipWith_xor_lt (a b : List Nat) (ha : ∀ x ∈ a, x < 256)
    (hb : ∀ x ∈ b, x < 256) : ∀ x ∈ List.zipWith Nat.xor a b, x < 256 := by
  induction a generalizing b with
  | nil => intro x hx; simp at hx
  | cons y a ih =>
      cases b with
      | nil => intro x hx; simp at hx
      | cons z b =>
          intro x hx
          simp only [List.zipWith_cons_cons, List.mem_cons] at hx
          rcases hx with hx | hx
          · subst hx
            have h1 : y < 2 ^ 8 := by simpa using ha y (by simp)
            have h2 : z < 2 ^ 8 := by simpa using hb z (by simp)
            simpa using Nat.xor_lt_two_pow h1 h2
          · exact ih b (fun u hu => ha u (List.mem_cons_of_mem _ hu))
              (fun u hu => hb u (List.mem_cons_of_mem _ hu)) x hx

theorem pbkdf2Loop_length (p : List Nat) (c : Nat) (u t : List Nat)
    (ht : t.length = 32) : (pbkdf2Loop (hmacSha256 p) c u t).length = 32 := by
  induction c generalizing u t with
  | zero => simpa using ht
  | succ c ih =>
      simp only [pbkdf2Loop]
      exact ih _ _ (by rw [List.length_zipWith, ht, hmacSha256_length]; omega)

theorem pbkdf2Loop_lt (p : List Nat) (c : Nat) (u t : List Nat)
    (ht : ∀ b ∈ t, b < 256) : ∀ b ∈ pbkdf2Loop (hmacSha256 p) c u t, b < 256 := by
  induction c generalizing u t with
  | zero => simpa using ht
  | succ c ih =>
      simp only [pbkdf2Loop]
      exact ih _ _ (mem_zipWith_xor_lt _ _ ht (hmacSha256_lt _ _))

theorem pbkdf2Sha256_length (p s : List Nat) (c : Nat) :
    (pbkdf2Sha256 p s c).length = 32 := by
  unfold pbkdf2Sha256
  exact pbkdf2Loop_length _ _ _ _ (hmacSha256_length _ _)

theorem pbkdf2Sha256_lt (p s : List Nat) (c : Nat) :
    ∀ b ∈ pbkdf2Sha256 p s c, b < 256 := by
  unfold pbkdf2Sha256
  exact pbkdf2Loop_lt _ _ _ _ (hmacSha256_lt _ _)

theorem pbkdf2Sha256_ne_nil (p s : List Nat) (c : Nat) : pbkdf2Sha256 p s c ≠ [] := by
  intro h
  have := pbkdf2Sha256_length p s c
  rw [h] at this
  simp at this

/-! Congruence of the derivation in the HMAC key: passwords whose
preprocessed keys coincide derive identical keys for every salt and
iteration count. -/

theorem hmacSha256_congr {k1 k2 : List Nat} (h : hmacKey k1 = hmacKey k2) :
    hmacSha256 k1 = hmacSha256 k2 :=
  funext fun m => by unfold hmacSha256; rw [h]

theorem pbkdf2Sha256_congr {p1 p2 : List Nat} (h : hmacKey p1 = hmacKey p2)
    (s : List Nat) (c : Nat) : pbkdf2Sha256 p1 s c = pbkdf2Sha256 p2 s c := by
  unfold pbkdf2Sha256
  rw [hmacSha256_congr h]

/-! Facts about the base64 codec. -/

theorem b64Table_length : b64Table.length = 64 := rfl

theorem b64Char_ne_dollar (n : Nat) : b64Char n ≠ '$' := by
  by_cases h : n < 64
  · exact (by decide : ∀ m, m < 64 → b64Char m ≠ '$') n h
  · unfold b64Char
    rw [List.getD_eq_default]
    · decide
    · rw [b64Table_length]; omega

theorem b64Char_ne_pad (n : Nat) (h : n < 64) : b64Char n ≠ '=' :=
  (by decide : ∀ m, m < 64 → b64Char m ≠ '=') n h

theorem b64CharVal_b64Char (n : Nat) (h : n < 64) : b64CharVal (b64Char n) = some n :=
  (by decide : ∀ m, m < 64 → b64CharVal (b64Char m) = some m) n h

theorem dollar_not_mem_b64Encode (bs : List Nat) : '$' ∉ b64EncodeBytes bs := by
  induction bs using b64EncodeBytes.induct with
  | case1 => simp [b64EncodeBytes]
  | case2 b1 =>
      intro h
      simp only [b64EncodeBytes, List.mem_cons, List.not_mem_nil, or_false] at h
      rcases h with h | h | h | h
      · exact b64Char_ne_dollar _ h.symm
      · exact b64Char_ne_dollar _ h.symm
      · exact absurd h (by decide)
      · exact absurd h (by decide)
  | case3 b1 b2 =>
      intro h
      simp only [b64EncodeBytes, List.mem_cons, List.not_mem_nil, or_false] at h
      rcases h with h | h | h | h
      · exact b64Char_ne_dollar _ h.symm
      · exact b64Char_ne_dollar _ h.symm
      · exact b64Char_ne_dollar _ h.symm
      · exact absurd h (by decide)
  | case4 b1 b2 b3 rest ih =>
      intro h
      simp only [b64EncodeBytes, List.mem_cons] at h
      rcases h with h | h | h | h | h
      · exact b64Char_ne_dollar _ h.symm
      · exact b64Char_ne_dollar _ h.symm
      · exact b64Char_ne_dollar _ h.symm
      · exact b64Char_ne_dollar _ h.symm
      · exact ih h

theorem b64Encode_eq_nil_iff (bs : List Nat) : b64EncodeBytes bs = [] ↔ bs = [] := by
  cases bs with
  | nil => simp [b64EncodeBytes]
  | cons b1 rest =>
      cases rest with
      | nil => simp [b64EncodeBytes]
      | cons b2 rest2 => cases rest2 <;> simp [b64EncodeBytes]

/-! Step lemmas for the base64 decoding state machine, and the round
trip over encoder output. -/

theorem a2b_step0 (c : Char) (rest : List Char) (left pads : Nat)
    (acc : List Nat) (v : Nat) (hpad : ¬(c = '=')) (hv : b64CharVal c = some v) :
    a2bBase64 (c :: rest) 0 left pads acc = a2bBase64 rest 1 v 0 acc := by
  simp only [a2bBase64, if_neg hpad, hv]

theorem a2b_step1 (c : Char) (rest : List Char) (left pads : Nat)
    (acc : List Nat) (v : Nat) (hpad : ¬(c = '=')) (hv : b64CharVal c = some v) :
    a2bBase64 (c :: rest) 1 left pads acc =
      a2bBase64 rest 2 (v % 16) 0 (acc ++ [left * 4 + v / 16]) := by
  simp only [a2bBase64, if_neg hpad, hv]

theorem a2b_step2 (c : Char) (rest : List Char) (left pads : Nat)
    (acc : List Nat) (v : Nat) (hpad : ¬(c = '=')) (hv : b64CharVal c = some v) :
    a2bBase64 (c :: rest) 2 left pads acc =
      a2bBase64 rest 3 (v % 4) 0 (acc ++ [left * 16 + v / 4]) := by
  simp only [a2bBase64, if_neg hpad, hv]

theorem a2b_step3 (c : Char) (rest : List Char) (left pads : Nat)
    (acc : List Nat) (v : Nat) (hpad : ¬(c = '=')) (hv : b64CharVal c = some v) :
    a2bBase64 (c :: rest) 3 left pads acc =
      a2bBase64 rest 0 0 0 (acc ++ [left * 64 + v]) := by
  simp only [a2bBase64, if_neg hpad, hv]

theorem a2b_pad_first (rest : List Char) (left : Nat) (acc : List Nat) :
    a2bBase64 ('=' :: rest) 2 left 0 acc = a2bBase64 rest 2 left 1 acc := by
  simp [a2bBase64]

theorem a2b_pad_second (rest : List Char) (left : Nat) (acc : List Nat) :
    a2bBase64 ('=' :: rest) 2 left 1 acc = some acc := by
  simp [a2bBase64]

theorem a2b_pad_quad3 (rest : List Char) (left : Nat) (acc : List Nat) :
    a2bBase64 ('=' :: rest) 3 left 0 acc = some acc := by
  simp [a2bBase64]

theorem a2b_encode (bs : List Nat) :
    ∀ acc, (∀ b ∈ bs, b < 256) →
      a2bBase64 (b64EncodeBytes bs) 0 0 0 acc = some (acc ++ bs) := by
  induction bs using b64EncodeBytes.induct with
  | case1 =>
      intro acc _
      simp [b64EncodeBytes, a2bBase64]
  | case2 b1 =>
      intro acc hb
      have h1 : b1 < 256 := hb b1 (by simp)
      have ne1 : ¬(b64Char (b1 / 4) = '=') := b64Char_ne_pad _ (by omega)
      have ne2 : ¬(b64Char (b1 % 4 * 16) = '=') := b64Char_ne_pad _ (by omega)
      have e1 := b64CharVal_b64Char (b1 / 4) (by omega)
      have e2 := b64CharVal_b64Char (b1 % 4 * 16) (by omega)
      rw [show b64EncodeBytes [b1] =
        b64Char (b1 / 4) :: b64Char (b1 % 4 * 16) :: '=' :: '=' :: [] from rfl]
      rw [a2b_step0 _ _ _ _ _ _ ne1 e1, a2b_step1 _ _ _ _ _ _ ne2 e2,
        a2b_pad_first, a2b_pad_second]
      have hx : b1 / 4 * 4 + b1 % 4 * 16 / 16 = b1 := by omega
      rw [hx]
  | case3 b1 b2 =>
      intro acc hb
      have h1 : b1 < 256 := hb b1 (by simp)
      have h2 : b2 < 256 := hb b2 (by simp)
      have ne1 : ¬(b64Char (b1 / 4) = '=') := b64Char_ne_pad _ (by omega)
      have ne2 : ¬(b64Char (b1 % 4 * 16 + b2 / 16) = '=') := b64Char_ne_pad _ (by omega)
      have ne3 : ¬(b64Char (b2 % 16 * 4) = '=') := b64Char_ne_pad _ (by omega)
      have e1 := b64CharVal_b64Char (b1 / 4) (by omega)
      have e2 := b64CharVal_b64Char (b1 % 4 * 16 + b2 / 16) (by omega)
      have e3 := b64CharVal_b64Char (b2 % 16 * 4) (by omega)
      rw [show b64EncodeBytes [b1, b2] = b64Char (b1 / 4) ::
        b64Char (b1 % 4 * 16 + b2 / 16) :: b64Char (b2 % 16 * 4) :: '=' :: [] from rfl]
      rw [a2b_step0 _ _ _ _ _ _ ne1 e1, a2b_step1 _ _ _ _ _ _ ne2 e2,
        a2b_step2 _ _ _ _ _ _ ne3 e3, a2b_pad_quad3]
      have hx : b1 / 4 * 4 + (b1 % 4 * 16 + b2 / 16) / 16 = b1 := by omega
      have hy : (b1 % 4 * 16 + b2 / 16) % 16 * 16 + b2 % 16 * 4 / 4 = b2 := by omega
      rw [hx, hy]
      simp
  | case4 b1 b2 b3 rest ih =>
      intro acc hb
      have h1 : b1 < 256 := hb b1 (by simp)
      have h2 : b2 < 256 := hb b2 (by simp)
      have h3 : b3 < 256 := hb b3 (by simp)
      have ne1 : ¬(b64Char (b1 / 4) = '=') := b64Char_ne_pad _ (by omega)
      have ne2 : ¬(b64Char (b1 % 4 * 16 + b2 / 16) = '=') := b64Char_ne_pad _ (by omega)
      have ne3 : ¬(b64Char (b2 % 16 * 4 + b3 / 64) = '=') := b64Char_ne_pad _ (by omega)
      have ne4 : ¬(b64Char (b3 % 64) = '=') := b64Char_ne_pad _ (by omega)
      have e1 := b64CharVal_b64Char (b1 / 4) (by omega)
      have e2 := b64CharVal_b64Char (b1 % 4 * 16 + b2 / 16) (by omega)
      have e3 := b64CharVal_b64Char (b2 % 16 * 4 + b3 / 64) (by omega)
      have e4 := b64CharVal_b64Char (b3 % 64) (by omega)
      rw [show b64EncodeBytes (b1 :: b2 :: b3 :: rest) = b64Char (b1 / 4) ::
        b64Char (b1 % 4 * 16 + b2 / 16) :: b64Char (b2 % 16 * 4 + b3 / 64) ::
        b64Char (b3 % 64) :: b64EncodeBytes rest from rfl]
      rw [a2b_step0 _ _ _ _ _ _ ne1 e1, a2b_step1 _ _ _ _ _ _ ne2 e2,
        a2b_step2 _ _ _ _ _ _ ne3 e3, a2b_step3 _ _ _ _ _ _ ne4 e4]
      have hx : b1 / 4 * 4 + (b1 % 4 * 16 + b2 / 16) / 16 = b1 := by omega
      have hy : (b1 % 4 * 16 + b2 / 16) % 16 * 16 + (b2 % 16 * 4 + b3 / 64) / 4 = b2 := by
        omega
      have hz : (b2 % 16 * 4 + b3 / 64) % 4 * 64 + b3 % 64 = b3 := by omega
      rw [hx, hy, hz, ih _ (fun b hbm => hb b (by simp [hbm]))]
      simp

theorem b64_roundtrip (bs : List Nat) (hb : ∀ b ∈ bs, b < 256) :
    b64DecodeBytes (b64EncodeBytes bs) = some bs := by
  unfold b64DecodeBytes
  rw [a2b_encode bs [] hb]
  simp

/-! Facts about decimal rendering and parsing of the iteration count. -/

theorem digitVal_digitChar (d : Nat) (h : d < 10) : digitVal (Char.ofNat (48 + d)) = some d :=
  (by decide : ∀ e, e < 10 → digitVal (Char.ofNat (48 + e)) = some e) d h

theorem digitChar_not_space (d : Nat) (h : d < 10) :
    pyIsAsciiSpace (Char.ofNat (48 + d)) = false :=
  (by decide : ∀ e, e < 10 → pyIsAsciiSpace (Char.ofNat (48 + e)) = false) d h

theorem scanDigits_digits (ds : List Nat) : ∀ acc, (∀ d ∈ ds, d < 10) →
    scanDigits (ds.map fun d => Char.ofNat (48 + d)) acc false =
      some (ds.foldl (fun a d => a * 10 + d) acc, []) := by
  induction ds with
  | nil => intro acc _; rfl
  | cons d ds ih =>
      intro acc h
      simp only [List.map_cons, scanDigits, digitVal_digitChar d (h d (by simp)),
        List.foldl_cons]
      exact ih _ (fun e he => h e (by simp [he]))

theorem foldl_base10_reverse (l : List Nat) (acc : Nat) :
    l.reverse.foldl (fun a d => a * 10 + d) acc =
      acc * 10 ^ l.length + Nat.ofDigits 10 l := by
  induction l generalizing acc with
  | nil => simp
  | cons d l ih =>
      rw [List.reverse_cons, List.foldl_append, ih]
      simp only [List.foldl_cons, List.foldl_nil, List.length_cons, Nat.ofDigits_cons,
        pow_succ]
      ring

theorem dollar_not_mem_natRepr (n : Nat) : '$' ∉ natRepr n := by
  unfold natRepr
  by_cases h : n = 0
  · simp [h]
  · rw [if_neg h]
    intro hm
    simp only [List.mem_map] at hm
    obtain ⟨d, hdm, hde⟩ := hm
    have hd : d < 10 := Nat.digits_lt_base (by norm_num) (List.mem_reverse.mp hdm)
    exact (by decide : ∀ e, e < 10 → ¬(Char.ofNat (48 + e) = '$')) d hd hde

theorem natRepr_ne_nil (n : Nat) : natRepr n ≠ [] := by
  unfold natRepr
  by_cases h : n = 0
  · simp [h]
  · rw [if_neg h]
    intro hmap
    apply Nat.digits_ne_nil_iff_ne_zero.mpr h
    simpa using hmap

theorem natRepr_all_ascii (n : Nat) :
    ((natRepr n).all fun c => c.toNat < 128) = true := by
  rw [List.all_eq_true]
  intro c hc
  unfold natRepr at hc
  by_cases h : n = 0
  · rw [if_pos h] at hc
    simp only [List.mem_singleton] at hc
    subst hc
    decide
  · rw [if_neg h] at hc
    simp only [List.mem_map] at hc
    obtain ⟨d, hdm, hde⟩ := hc
    have hd : d < 10 := Nat.digits_lt_base (by norm_num) (List.mem_reverse.mp hdm)
    rw [← hde]
    exact (by decide :
      ∀ e, e < 10 → (decide ((Char.ofNat (48 + e)).toNat < 128)) = true) d hd

theorem strToInt_natRepr (n : Nat) : strToInt (natRepr n) = some (n : Int) := by
  unfold strToInt
  rw [if_pos (natRepr_all_ascii n)]
  by_cases h : n = 0
  · subst h
    rfl
  · have hval : List.foldl (fun a d => a * 10 + d) 0 (Nat.digits 10 n).reverse = n := by
      rw [foldl_base10_reverse]
      simp [Nat.ofDigits_digits]
    unfold natRepr
    rw [if_neg h]
    cases hrev : (Nat.digits 10 n).reverse with
    | nil =>
        exact absurd (List.reverse_eq_nil_iff.mp hrev)
          (Nat.digits_ne_nil_iff_ne_zero.mpr h)
    | cons d ds =>
        rw [hrev] at hval
        have hbound : ∀ e ∈ d :: ds, e < 10 := by
          rw [← hrev]
          intro e he
          exact Nat.digits_lt_base (by norm_num) (List.mem_reverse.mp he)
        have hd : d < 10 := hbound d (by simp)
        rw [List.foldl_cons] at hval
        norm_num at hval
        simp only [List.map_cons]
        unfold strToIntAux
        rw [List.dropWhile_cons, if_neg (by rw [digitChar_not_space d hd]; simp)]
        have hm : ¬(Char.ofNat (48 + d) = '-') :=
          (by decide : ∀ e, e < 10 → ¬(Char.ofNat (48 + e) = '-')) d hd
        have hp2 : ¬(Char.ofNat (48 + d) = '+') :=
          (by decide : ∀ e, e < 10 → ¬(Char.ofNat (48 + e) = '+')) d hd
        simp only [if_neg hm, if_neg hp2, parseDigitRun, digitVal_digitChar d hd,
          scanDigits_digits ds d (fun e he => hbound e (by simp [he]))]
        simp [hval]

/-! Facts about the dollar split. -/

theorem splitDollar_no_dollar (a : List Char) (h : '$' ∉ a) : splitDollar a = [a] := by
  induction a with
  | nil => rfl
  | cons c cs ih =>
      have hc : ¬(c = '$') := fun hc => h (by simp [hc])
      have hcs : '$' ∉ cs := fun hm => h (by simp [hm])
      simp only [splitDollar, if_neg hc, ih hcs]

theorem splitDollar_append (a r : List Char) (h : '$' ∉ a) :
    splitDollar (a ++ '$' :: r) = a :: splitDollar r := by
  induction a with
  | nil => simp [splitDollar]
  | cons c cs ih =>
      have hc : ¬(c = '$') := fun hc => h (by simp [hc])
      have hcs : '$' ∉ cs := fun hm => h (by simp [hm])
      rw [List.cons_append]
      simp only [splitDollar, if_neg hc]
      rw [ih hcs]

theorem splitDollar_three (a b c : List Char) (ha : '$' ∉ a) (hb : '$' ∉ b)
    (hc : '$' ∉ c) : splitDollar (a ++ '$' :: (b ++ '$' :: c)) = [a, b, c] := by
  rw [splitDollar_append _ _ ha, splitDollar_append _ _ hb, splitDollar_no_dollar _ hc]

/-! Facts about the constant-time comparison. -/

theorem lor_eq_zero_iff (a b : Nat) : a ||| b = 0 ↔ a = 0 ∧ b = 0 := by
  constructor
  · intro h
    have hi : ∀ i, (Nat.testBit a i || Nat.testBit b i) = false := fun i => by
      have := congrArg (fun x => Nat.testBit x i) h
      simpa [Nat.testBit_or] using this
    constructor
    · refine Nat.eq_of_testBit_eq fun i => ?_
      have := hi i
      simp only [Bool.or_eq_false_iff] at this
      simp [this.1]
    · refine Nat.eq_of_testBit_eq fun i => ?_
      have := hi i
      simp only [Bool.or_eq_false_iff] at this
      simp [this.2]
  · rintro ⟨rfl, rfl⟩
    rfl

theorem foldl_lor_eq_zero_iff (l : List Nat) (acc : Nat) :
    l.foldl Nat.lor acc = 0 ↔ acc = 0 ∧ ∀ x ∈ l, x = 0 := by
  induction l generalizing acc with
  | nil => simp
  | cons x l ih =>
      rw [List.foldl_cons, ih, show Nat.lor acc x = acc ||| x from rfl,
        lor_eq_zero_iff]
      constructor
      · rintro ⟨⟨h1, h2⟩, h3⟩
        refine ⟨h1, fun y hy => ?_⟩
        rcases List.mem_cons.mp hy with hy | hy
        · exact hy ▸ h2
        · exact h3 y hy
      · rintro ⟨h1, h2⟩
        exact ⟨⟨h1, h2 x (List.mem_cons_self x l)⟩,
          fun y hy => h2 y (List.mem_cons_of_mem _ hy)⟩

theorem eq_of_zipWith_xor (a b : List Nat) (hl : a.length = b.length)
    (h : ∀ x ∈ List.zipWith Nat.xor a b, x = 0) : a = b := by
  induction a generalizing b with
  | nil => cases b with | nil => rfl | cons y b => simp at hl
  | cons x a ih =>
      cases b with
      | nil => simp at hl
      | cons y b =>
          simp only [List.zipWith_cons_cons, List.mem_cons] at h
          have hxy : x = y := Nat.xor_eq_zero.mp (h _ (Or.inl rfl))
          have hab : a = b := ih b (by simpa using hl) fun z hz => h z (Or.inr hz)
          rw [hxy, hab]

theorem zipWith_xor_self (a : List Nat) : ∀ x ∈ List.zipWith Nat.xor a a, x = 0 := by
  induction a with
  | nil => simp
  | cons z a ih =>
      intro x hx
      simp only [List.zipWith_cons_cons, List.mem_cons] at hx
      rcases hx with hx | hx
      · rw [hx]
        exact Nat.xor_self z
      · exact ih x hx

theorem compare_digest_eq_true_iff (a b : List Nat) :
    compare_digest a b = true ↔ a = b := by
  unfold compare_digest
  constructor
  · intro h
    simp only [Bool.and_eq_true, beq_iff_eq] at h
    exact eq_of_zipWith_xor a b h.1 ((foldl_lor_eq_zero_iff _ 0).mp h.2).2
  · rintro rfl
    have h2 := (foldl_lor_eq_zero_iff (List.zipWith Nat.xor a a) 0).mpr
      ⟨rfl, zipWith_xor_self a⟩
    rw [Bool.and_eq_true, beq_iff_eq, beq_iff_eq]
    exact ⟨rfl, h2⟩

/-! Reduction of `verify_password` through its parsing stage, and parsing
of the strings `hash_password` emits. -/

theorem parse_mk (n : Nat) (salt dk : List Nat) (hbs : ∀ b ∈ salt, b < 256)
    (hbd : ∀ b ∈ dk, b < 256) :
    parseStored ⟨natRepr n ++ '$' :: (b64EncodeBytes salt ++ '$' :: b64EncodeBytes dk)⟩ =
      some ((n : Int), salt, dk) := by
  have hdata : (⟨natRepr n ++ '$' :: (b64EncodeBytes salt ++ '$' ::
      b64EncodeBytes dk)⟩ : String).data =
      natRepr n ++ '$' :: (b64EncodeBytes salt ++ '$' :: b64EncodeBytes dk) := rfl
  have hsplit := splitDollar_three (natRepr n) (b64EncodeBytes salt) (b64EncodeBytes dk)
    (dollar_not_mem_natRepr n) (dollar_not_mem_b64Encode salt)
    (dollar_not_mem_b64Encode dk)
  unfold parseStored
  rw [hdata, hsplit]
  simp only [strToInt_natRepr, b64_roundtrip salt hbs, b64_roundtrip dk hbd]

theorem verify_of_parse_none (p s : String) (h : parseStored s = none) :
    verify_password p s = Except.ok false := by
  unfold verify_password
  rw [h]

theorem verify_of_parse_some (p s : String) (it : Int) (salt dk : List Nat)
    (h : parseStored s = some (it, salt, dk)) :
    verify_password p s =
      if it < 1 then Except.error ()
      else Except.ok (compare_digest (pbkdf2Sha256 (utf8 p) salt it.toNat) dk) := by
  unfold verify_password _hash_password_raw
  rw [h]
  by_cases hit : it < 1
  · simp [hit]
  · simp [hit]

theorem hash_password_data (p : String) (salt : List Nat) :
    hash_password p salt =
      ⟨natRepr 100000 ++ '$' :: (b64EncodeBytes salt ++ '$' ::
        b64EncodeBytes (pbkdf2Sha256 (utf8 p) salt 100000))⟩ := rfl

theorem parse_hash_password (p : String) (salt : List Nat)
    (hbs : ∀ b ∈ salt, b < 256) :
    parseStored (hash_password p salt) =
      some ((100000 : Int), salt, pbkdf2Sha256 (utf8 p) salt 100000) := by
  rw [hash_password_data]
  exact parse_mk 100000 salt _ hbs (pbkdf2Sha256_lt _ _ _)

theorem verify_hash_password (p1 p2 : String) (salt : List Nat)
    (hbs : ∀ b ∈ salt, b < 256) :
    verify_password p2 (hash_password p1 salt) =
      Except.ok (compare_digest (pbkdf2Sha256 (utf8 p2) salt 100000)
        (pbkdf2Sha256 (utf8 p1) salt 100000)) := by
  rw [verify_of_parse_some p2 _ _ _ _ (parse_hash_password p1 salt hbs),
    if_neg (by norm_num)]
  rfl

/-! Claim theorems. -/

/-- Claim C1, counterexample to the claim as stated: the claim asserts
that for every string input whatsoever `verify` returns a boolean and
never raises, but on the well-formed-looking credential `"0$$"` the
parsed iteration count 0 reaches `hashlib.pbkdf2_hmac` outside the
`try` block, which raises ValueError: `verify_password` produces an
error, not a boolean. -/
theorem c1_counterexample_raises :
    verify_password "x" "0$$" = Except.error () := rfl

/-- Claim C1, amended: for every password and stored string, a parse
failure (wrong dollar count, integer-parse failure, or base64 failure)
yields `false` with no exception; when parsing succeeds, `verify`
returns a boolean if the decoded iteration count is at least 1, and
raises the derivation's ValueError — which escapes `verify` — if it is
below 1. -/
theorem c1_fail_closed_amended (p s : String) :
    (parseStored s = none → verify_password p s = Except.ok false) ∧
    (∀ it salt dk, parseStored s = some (it, salt, dk) →
      (1 ≤ it → verify_password p s =
        Except.ok (compare_digest (pbkdf2Sha256 (utf8 p) salt it.toNat) dk)) ∧
      (it < 1 → verify_password p s = Except.error ())) := by
  refine ⟨fun h => verify_of_parse_none p s h,
    fun it salt dk h => ⟨fun hit => ?_, fun hit => ?_⟩⟩
  · rw [verify_of_parse_some p s it salt dk h, if_neg (by omega)]
  · rw [verify_of_parse_some p s it salt dk h, if_pos hit]

/-- Claim C1, witness: a string that fails to parse verifies to `false`
without an exception, and a parsed iteration count of 0 raises. -/
theorem c1_fail_closed_witness :
    verify_password "x" "notbase64!!" = Except.ok false ∧
    verify_password "y" "0$$" = Except.error () :=
  ⟨(c1_fail_closed_amended "x" "notbase64!!").1 rfl,
    ((c1_fail_closed_amended "y" "0$$").2 0 [] [] rfl).2 (by decide)⟩

/-- Claim C2: for every password and every 16-byte salt drawn by the
random source, a credential produced by `hash_password` verifies
against the password it was produced from. -/
theorem c2_round_trip (p : String) (salt : List Nat) (hlen : salt.length = 16)
    (hb : ∀ b ∈ salt, b < 256) :
    verify_password p (hash_password p salt) = Except.ok true := by
  rw [verify_hash_password p p salt hb,
    (compare_digest_eq_true_iff _ _).mpr rfl]

/-- Claim C2, witness at a concrete password and salt. -/
theorem c2_round_trip_witness :
    verify_password "mysecretpassword"
      (hash_password "mysecretpassword" (List.replicate 16 0)) = Except.ok true :=
  c2_round_trip "mysecretpassword" (List.replicate 16 0) (by decide) (by decide)

/-- Claim C3: verification re-runs the derivation with the iteration
count and salt decoded from the stored string, not the current default:
for every positive `n` and salt, the well-formed string built from `n`,
the salt, and the PBKDF2-HMAC-SHA256 key at those parameters verifies. -/
theorem c3_uses_decoded_parameters (p : String) (n : Nat) (salt : List Nat)
    (hn : 1 ≤ n) (hb : ∀ b ∈ salt, b < 256) :
    verify_password p ⟨natRepr n ++ '$' :: (b64EncodeBytes salt ++ '$' ::
      b64EncodeBytes (pbkdf2Sha256 (utf8 p) salt n))⟩ = Except.ok true := by
  have hp := parse_mk n salt (pbkdf2Sha256 (utf8 p) salt n) hb
    (pbkdf2Sha256_lt _ _ _)
  rw [verify_of_parse_some p _ _ _ _ hp, if_neg (by omega), Int.toNat_natCast,
    (compare_digest_eq_true_iff _ _).mpr rfl]

/-- Claim C3, witness at one iteration and an empty salt. -/
theorem c3_uses_decoded_parameters_witness :
    verify_password "pw" ⟨natRepr 1 ++ '$' :: (b64EncodeBytes [] ++ '$' ::
      b64EncodeBytes (pbkdf2Sha256 (utf8 "pw") [] 1))⟩ = Except.ok true :=
  c3_uses_decoded_parameters "pw" 1 [] (by decide) (by decide)

/-- Claim C4, counterexample to the claim as stated: the passwords
`"a"` and `"a\x00"` are distinct, yet the credential encoded from `"a"`
verifies against `"a\x00"`, because HMAC zero-pads both UTF-8 keys to
the same 64-byte block key, so PBKDF2 derives identical keys. -/
theorem c4_counterexample :
    ("a\x00" : String) ≠ "a" ∧
    verify_password "a\x00" (hash_password "a" (List.replicate 16 0)) =
      Except.ok true := by
  refine ⟨by decide, ?_⟩
  have hk : hmacKey (utf8 "a\x00") = hmacKey (utf8 "a") := by decide
  rw [verify_hash_password "a" "a\x00" (List.replicate 16 0) (by decide),
    pbkdf2Sha256_congr hk (List.replicate 16 0) 100000,
    (compare_digest_eq_true_iff _ _).mpr rfl]

/-- Claim C4, amended: for all passwords `p1`, `p2` and any 16-byte
salt used during encoding, `verify(p2, encode(p1))` is `true` exactly
when the PBKDF2-HMAC-SHA256 keys of `p2` and `p1` over that salt at
100000 iterations coincide; the verification is `false` whenever the
derived keys differ, but not for all `p1 ≠ p2`, since distinct
passwords whose UTF-8 encodings zero-pad to the same HMAC key derive
the same key. -/
theorem c4_negative_iff (p1 p2 : String) (salt : List Nat)
    (hlen : salt.length = 16) (hb : ∀ b ∈ salt, b < 256) :
    verify_password p2 (hash_password p1 salt) = Except.ok true ↔
      pbkdf2Sha256 (utf8 p2) salt 100000 = pbkdf2Sha256 (utf8 p1) salt 100000 := by
  rw [verify_hash_password p1 p2 salt hb]
  constructor
  · intro h
    exact (compare_digest_eq_true_iff _ _).mp (Except.ok.inj h)
  · intro h
    rw [(compare_digest_eq_true_iff _ _).mpr h]

/-- Claim C4, witness at concrete passwords and salt. -/
theorem c4_negative_iff_witness :
    verify_password "pw2" (hash_password "pw2" (List.replicate 16 1)) =
      Except.ok true :=
  (c4_negative_iff "pw2" "pw2" (List.replicate 16 1) (by decide) (by decide)).mpr rfl

/-- Claim C5: for every password and 16-byte salt, the encoded
credential contains exactly two dollar delimiters separating three
non-empty fields, none of which contains a dollar; the first field
parses as the positive integer 100000 and the other two are valid
standard base64, decoding back to the salt and derived key. -/
theorem c5_format_stability (p : String) (salt : List Nat)
    (hlen : salt.length = 16) (hb : ∀ b ∈ salt, b < 256) :
    (hash_password p salt).data.count '$' = 2 ∧
    splitDollar (hash_password p salt).data =
      [natRepr 100000, b64EncodeBytes salt,
        b64EncodeBytes (pbkdf2Sha256 (utf8 p) salt 100000)] ∧
    (∀ f ∈ splitDollar (hash_password p salt).data, f ≠ [] ∧ '$' ∉ f) ∧
    strToInt (natRepr 100000) = some ((100000 : Nat) : Int) ∧
    (0 : Int) < ((100000 : Nat) : Int) ∧
    b64DecodeBytes (b64EncodeBytes salt) = some salt ∧
    b64DecodeBytes (b64EncodeBytes (pbkdf2Sha256 (utf8 p) salt 100000)) =
      some (pbkdf2Sha256 (utf8 p) salt 100000) := by
  have hdata : (hash_password p salt).data =
      natRepr 100000 ++ '$' :: (b64EncodeBytes salt ++ '$' ::
        b64EncodeBytes (pbkdf2Sha256 (utf8 p) salt 100000)) := by
    rw [hash_password_data]
  have hsplit := splitDollar_three (natRepr 100000) (b64EncodeBytes salt)
    (b64EncodeBytes (pbkdf2Sha256 (utf8 p) salt 100000))
    (dollar_not_mem_natRepr 100000) (dollar_not_mem_b64Encode salt)
    (dollar_not_mem_b64Encode _)
  refine ⟨?_, ?_, ?_, strToInt_natRepr 100000, by norm_num,
    b64_roundtrip salt hb, b64_roundtrip _ (pbkdf2Sha256_lt _ _ _)⟩
  · rw [hdata, List.count_append, List.count_cons_self, List.count_append,
      List.count_cons_self,
      List.count_eq_zero.mpr (dollar_not_mem_natRepr 100000),
      List.count_eq_zero.mpr (dollar_not_mem_b64Encode salt),
      List.count_eq_zero.mpr (dollar_not_mem_b64Encode
        (pbkdf2Sha256 (utf8 p) salt 100000))]
  · rw [hdata]
    exact hsplit
  · rw [hdata, hsplit]
    intro f hf
    simp only [List.mem_cons, List.not_mem_nil, or_false] at hf
    rcases hf with h | h | h
    · rw [h]
      exact ⟨natRepr_ne_nil _, dollar_not_mem_natRepr _⟩
    · rw [h]
      refine ⟨?_, dollar_not_mem_b64Encode _⟩
      rw [Ne, b64Encode_eq_nil_iff]
      intro h0
      rw [h0] at hlen
      simp at hlen
    · rw [h]
      refine ⟨?_, dollar_not_mem_b64Encode _⟩
      rw [Ne, b64Encode_eq_nil_iff]
      exact pbkdf2Sha256_ne_nil _ _ _

/-- Claim C5, witness: the dollar count of a concretely encoded
credential is two. -/
theorem c5_format_stability_witness :
    (hash_password "p" (List.replicate 16 2)).data.count '$' = 2 :=
  (c5_format_stability "p" (List.replicate 16 2) (by decide) (by decide)).1

/-- Claim C6: encoding derives its key by PBKDF2-HMAC-SHA256 at exactly
100000 iterations over the supplied 16-byte salt — the guarded helper
returns precisely that key — the derived key is 32 bytes, the emitted
string is exactly the three-field serialization of these values, and
decoding it returns exactly the iteration count 100000, the salt, and
the derived key. -/
theorem c6_encode_parameters (p : String) (salt : List Nat)
    (hlen : salt.length = 16) (hb : ∀ b ∈ salt, b < 256) :
    _hash_password_raw p salt 100000 =
      Except.ok (pbkdf2Sha256 (utf8 p) salt 100000) ∧
    (pbkdf2Sha256 (utf8 p) salt 100000).length = 32 ∧
    hash_password p salt =
      ⟨natRepr 100000 ++ '$' :: (b64EncodeBytes salt ++ '$' ::
        b64EncodeBytes (pbkdf2Sha256 (utf8 p) salt 100000))⟩ ∧
    parseStored (hash_password p salt) =
      some (((100000 : Nat) : Int), salt, pbkdf2Sha256 (utf8 p) salt 100000) := by
  refine ⟨?_, pbkdf2Sha256_length _ _ _, hash_password_data p salt,
    parse_hash_password p salt hb⟩
  unfold _hash_password_raw
  rw [if_neg (by norm_num)]
  rfl

/-- Claim C6, witness: the derived key is 32 bytes at a concrete
password and salt. -/
theorem c6_encode_parameters_witness :
    (pbkdf2Sha256 (utf8 "p2") (List.replicate 16 4) 100000).length = 32 :=
  (c6_encode_parameters "p2" (List.replicate 16 4) (by decide) (by decide)).2.1

/-- Claim C7: encoding the same password under two distinct 16-byte
salts yields distinct credential strings, each of which still verifies
against the password. -/
theorem c7_salt_uniqueness (p : String) (s1 s2 : List Nat)
    (h1 : s1.length = 16) (h2 : s2.length = 16)
    (hb1 : ∀ b ∈ s1, b < 256) (hb2 : ∀ b ∈ s2, b < 256) (hne : s1 ≠ s2) :
    hash_password p s1 ≠ hash_password p s2 ∧
    verify_password p (hash_password p s1) = Except.ok true ∧
    verify_password p (hash_password p s2) = Except.ok true := by
  refine ⟨?_, ?_, ?_⟩
  · intro he
    apply hne
    have hp1 := parse_hash_password p s1 hb1
    have hp2 := parse_hash_password p s2 hb2
    rw [he, hp2] at hp1
    exact (congrArg (fun t => t.2.1) (Option.some.inj hp1)).symm
  · rw [verify_hash_password p p s1 hb1,
      (compare_digest_eq_true_iff _ _).mpr rfl]
  · rw [verify_hash_password p p s2 hb2,
      (compare_digest_eq_true_iff _ _).mpr rfl]

/-- Claim C7, witness: two concrete distinct salts give distinct
credentials for the same password. -/
theorem c7_salt_uniqueness_witness :
    hash_password "pw" (List.replicate 16 0) ≠
      hash_password "pw" (List.replicate 16 3) :=
  (c7_salt_uniqueness "pw" (List.replicate 16 0) (List.replicate 16 3)
    (by decide) (by decide) (by decide) (by decide) (by decide)).1

/-- Claim C8, counterexample to the claim as stated: when the request
reuses the password string as its username, the persisted record's
username field is textually the plain password, so the password is
stored in a field of the persisted user record. -/
theorem c8_counterexample :
    ({ username := "x", email := "x", password := "x" } : UserCreate).password =
      "x" ∧
    ((Crud.create_user ⟨[]⟩ { username := "x", email := "x", password := "x" }
      (List.replicate 16 0)).1.users.map UserRecord.username) = ["x"] :=
  ⟨rfl, rfl⟩

/-- Claim C8, amended: `create_user` persists exactly the string
`hash_password(password)` unmodified as the `password_hash` field, and
the other persisted fields are the request's username and email copied
verbatim — the password reaches the record only through `hash_password`,
though a request may itself reuse the password text as username or
email. -/
theorem c8_persists_hash_only (db : DBState) (user_in : UserCreate)
    (salt : List Nat) (db2 : DBState) (u : UserRecord)
    (h : Crud.create_user db user_in salt = (db2, Except.ok u)) :
    u.password_hash = hash_password user_in.password salt ∧
    u.username = user_in.username ∧ u.email = user_in.email ∧
    db2.users = db.users ++ [u] := by
  simp only [Crud.create_user] at h
  split at h
  · exact absurd (congrArg Prod.snd h) (by simp)
  · have h1 := congrArg Prod.fst h
    have h2 := congrArg Prod.snd h
    simp only at h1 h2
    have h3 := Except.ok.inj h2
    subst h3
    refine ⟨rfl, rfl, rfl, ?_⟩
    rw [← h1]

/-- Claim C8, witness: at a concrete request the stored record's
`password_hash` is the encoded credential. -/
theorem c8_persists_hash_only_witness :
    UserRecord.password_hash
      ⟨"u", "e", hash_password "p" (List.replicate 16 0)⟩ =
      hash_password "p" (List.replicate 16 0) :=
  (c8_persists_hash_only ⟨[]⟩ ⟨"u", "e", "p"⟩ (List.replicate 16 0)
    ⟨[⟨"u", "e", hash_password "p" (List.replicate 16 0)⟩]⟩
    ⟨"u", "e", hash_password "p" (List.replicate 16 0)⟩ rfl).1

/-- Claim C10: when the new row duplicates an existing username or
email, `create_user` rolls the session back — the returned state is the
unchanged input state, with no partial row — and re-raises the
integrity error, which the POST /users/ route maps to a 400 response
with detail "Username or email already exists.". -/
theorem c10_duplicate_rolls_back (db : DBState) (user_in : UserCreate)
    (salt : List Nat)
    (h : (db.users.any fun v => v.username == user_in.username ||
      v.email == user_in.email) = true) :
    Crud.create_user db user_in salt = (db, Except.error ()) ∧
    Main.create_user db user_in salt =
      (db, RouteResult.httpError 400 "Username or email already exists.") := by
  have hv : violatesUnique db
      { username := user_in.username, email := user_in.email,
        password_hash := hash_password user_in.password salt } = true := h
  have hc : Crud.create_user db user_in salt = (db, Except.error ()) := by
    simp only [Crud.create_user]
    rw [if_pos hv]
  refine ⟨hc, ?_⟩
  simp only [Main.create_user, hc]

/-- Claim C10, witness: a concrete duplicate registration leaves the
store unchanged and produces the 400 response. -/
theorem c10_duplicate_rolls_back_witness :
    Main.create_user ⟨[⟨"u", "e", "h"⟩]⟩ ⟨"u", "e2", "p2"⟩
      (List.replicate 16 0) =
      (⟨[⟨"u", "e", "h"⟩]⟩,
        RouteResult.httpError 400 "Username or email already exists.") :=
  (c10_duplicate_rolls_back ⟨[⟨"u", "e", "h"⟩]⟩ ⟨"u", "e2", "p2"⟩
    (List.replicate 16 0) rfl).2

end SecureUser
